import Mathlib

/-!
Verification development for the DedupSuite deduplication engines
(`src/dedup_suite.py`): the exact-content audit pipeline (`FileAuditor`),
the perceptual/video audit (`VideoFileAuditor`) and the folder merge
engine (`FolderMerger`), shallowly embedded as executable Lean functions.

Modelling conventions:
* File contents are `List Nat` (byte sequences); a file's size is the
  length of its content, as returned by `stat` for readable files.
* The SHA-256 digest is an abstract parameter `digest : List Nat → List Nat`;
  collision-freeness of the digest is an explicit `Function.Injective`
  hypothesis where a claim needs it.
* Paths are `Nat` identifiers; the sort key `str(path)` of the video
  auditor is modelled by the order on these identifiers.
* A perceptual hash (`imagehash.phash` value) is a fixed-length bit
  array `List Bool`; `ImageHash.__sub__` is the count of differing bits.
* The concurrent phases collect results with `as_completed` and group
  them single-threaded afterwards; the embedding sequentialises each
  phase, and theorems about run-order independence quantify over the
  arrival permutation.
-/

namespace DedupSuite

/-- A file record seen by `FileAuditor`: path, byte content, creation
time (`st_ctime`) and whether `os.remove` would succeed on it (an
unreadable/undeletable file raises `OSError`, which the code catches). -/
structure SFile where
  path : Nat
  content : List Nat
  ctime : Nat
  deletable : Bool
deriving DecidableEq, Repr

/-- `stat().st_size` of a file: the length of its byte content. -/
def SFile.size (f : SFile) : Nat := f.content.length

/-- Phase-A key: files are bucketed by size (`size_map` in `FileAuditor.run`). -/
def sizeKey (f : SFile) : Nat := f.content.length

/-- Phase-B key: `(size, partial_hash)` where `get_partial_hash` digests
only the first 4096 bytes of the file. -/
def preKey (digest : List Nat → List Nat) (f : SFile) : Nat × List Nat :=
  (f.content.length, digest (f.content.take 4096))

/-- Phase-C key: `(size, full_hash)` where `get_file_hash` digests the
whole streamed content (`processed_groups[s][h]`). -/
def fullKey (digest : List Nat → List Nat) (f : SFile) : Nat × List Nat :=
  (f.content.length, digest f.content)

/-- Group a list of files by a key, in first-occurrence order of the
keys; this is the single-threaded aggregation into a `defaultdict`. -/
def bucketsBy {κ : Type} [DecidableEq κ] (key : SFile → κ) (xs : List SFile) :
    List (List SFile) :=
  ((xs.map key).dedup).map (fun k => xs.filter (fun x => decide (key x = k)))

/-- Keep only buckets with at least two members (`len(p) > 1` /
`len(paths) > 1` / `len(file_list) > 1` in the three phases). -/
def keepMulti (gs : List (List SFile)) : List (List SFile) :=
  gs.filter (fun g => decide (1 < g.length))

/-- The files that survive one bucketing phase: members of all
multi-member buckets, in bucket order. -/
def survivors {κ : Type} [DecidableEq κ] (key : SFile → κ) (xs : List SFile) :
    List SFile :=
  (keepMulti (bucketsBy key xs)).flatten

/-- The `full_tasks` of `FileAuditor.run`: files that survive the size
bucketing (phase A) and then the `(size, partial_hash)` pre-screen
(phase B). -/
def phase2Input (digest : List Nat → List Nat) (files : List SFile) :
    List SFile :=
  survivors (preKey digest) (survivors sizeKey files)

/-- The duplicate groups emitted by an exact full scan with no stop or
pause: phase-B survivors bucketed by `(size, full_hash)`, keeping the
multi-member buckets (`if len(file_list) > 1: self.handle_duplicates`). -/
def exactGroups (digest : List Nat → List Nat) (files : List SFile) :
    List (List SFile) :=
  keepMulti (bucketsBy (fullKey digest) (phase2Input digest files))

/-- The groups reported by a run whose stop signal is raised during the
full-hash phase: the main loop checks `stop_event` before consuming each
completed future, so exactly the first `k` arrived results (an arbitrary
permutation `arrival` of the phase-B survivors) reach
`processed_groups`, and the groups are assembled from them after the
loop. -/
def stoppedGroups (digest : List Nat → List Nat) (arrival : List SFile)
    (k : Nat) : List (List SFile) :=
  keepMulti (bucketsBy (fullKey digest) (arrival.take k))

/-- Result of `FileAuditor.run` as observable at the end of the run. -/
structure AuditResult where
  filesScanned : Nat
  groups : List (List SFile)
deriving DecidableEq, Repr

/-- `FileAuditor.run` on the files yielded by `os.walk(root_path)`.
Neither `__init__` nor `run` validates the root path; `os.walk` of a
nonexistent or non-directory root yields no entries (errors are
swallowed by its default `onerror=None`), so the walk list is empty and
the run completes normally.  The `Except` result type makes explicit
that no input is ever rejected: the function never returns `.error`. -/
def exactAuditRun (digest : List Nat → List Nat) (walkFiles : List SFile) :
    Except String AuditResult :=
  Except.ok { filesScanned := walkFiles.length
              groups := exactGroups digest walkFiles }

/-- Ordering of files by creation time, the sort key of
`handle_duplicates` (`file_list.sort(key=lambda x: x.stat().st_ctime)`). -/
def ctimeLe (a b : SFile) : Prop := a.ctime ≤ b.ctime

instance : DecidableRel ctimeLe := fun a b => Nat.decLe a.ctime b.ctime

instance : IsTotal SFile ctimeLe := ⟨fun a b => Nat.le_total a.ctime b.ctime⟩

instance : IsTrans SFile ctimeLe := ⟨fun _ _ _ h₁ h₂ => Nat.le_trans h₁ h₂⟩

/-- The deletion loop of `handle_duplicates`: each duplicate is removed
inside its own `try/except`, so a failed `os.remove` (modelled by
`deletable = false`) is caught and the loop continues with the next
duplicate. Returns the files actually removed. -/
def deleteSweep : List SFile → List SFile
  | [] => []
  | d :: rest => if d.deletable then d :: deleteSweep rest else deleteSweep rest

/-- Outcome of `FileAuditor.handle_duplicates` on one group (auto-resolve
path, `review_mode = False`): `kept` is `file_list[0]` after the ctime
sort, `removed` the files deleted on disk, `dupCount` and `bytes` the
increments to `duplicates_found` and `bytes_saved`. -/
structure ResolveResult where
  kept : Option SFile
  removed : List SFile
  dupCount : Nat
  bytes : Nat
deriving DecidableEq, Repr

/-- `FileAuditor.handle_duplicates` with the delete action (`del = true`;
with `del = false` and a `move_to` target the duplicates are moved, not
removed).  The group is sorted by creation time ascending, the head is
kept, and when the run is live with the delete action each remaining
file is `os.remove`d under its own `try/except`. -/
def resolveGroup (dryRun del : Bool) (files : List SFile) : ResolveResult :=
  let sorted := List.insertionSort ctimeLe files
  let dups := sorted.tail
  { kept := sorted.head?
    removed := if dryRun = true ∨ del = false then [] else deleteSweep dups
    dupCount := dups.length
    bytes := (dups.map SFile.size).sum }

/-- A fingerprinted media file in `VideoFileAuditor.run`: the path (the
sort key `str(path)` is modelled by the order on the identifier) and the
fingerprint returned by `get_fingerprint` — a tuple of one perceptual
hash for an image, three for a video, each hash a fixed-length bit
array. -/
structure VFile where
  path : Nat
  fp : List (List Bool)
deriving DecidableEq, Repr

/-- `ImageHash.__sub__`: the Hamming distance between two perceptual
hashes, the number of bit positions where they differ. -/
def hamming (a b : List Bool) : Nat :=
  ((List.zipWith (fun x y => decide (x ≠ y)) a b).filter id).length

/-- The distance computed in the clustering sweep:
`sum(p_fp[k] - c_fp[k] for k in range(len(p_fp)))`.  The sum indexes the
candidate tuple at every position of the pivot tuple, so when the pivot
tuple is longer than the candidate tuple the indexing `c_fp[k]` is out
of range and raises `IndexError` (`none`); otherwise it is the sum of
pairwise Hamming distances over the pivot's positions. -/
def vdist (p c : List (List Bool)) : Option Nat :=
  if p.length ≤ c.length then
    some ((List.zipWith hamming p c).sum)
  else none

/-- Ordering of fingerprinted files by path, the deterministic sort key
of the clustering step (`fingerprints.sort(key=lambda x: str(x[1]))`). -/
def pathLe (a b : VFile) : Prop := a.path ≤ b.path

instance : DecidableRel pathLe := fun a b => Nat.decLe a.path b.path

instance : IsTotal VFile pathLe := ⟨fun a b => Nat.le_total a.path b.path⟩

instance : IsTrans VFile pathLe := ⟨fun _ _ _ h₁ h₂ => Nat.le_trans h₁ h₂⟩

/-- The deterministic pre-sort of the clustering step. -/
def sortByPath (files : List VFile) : List VFile :=
  List.insertionSort pathLe files

/-- The inner loop of the clustering sweep (`for j in range(i+1, ...)`):
compare every later, unvisited file against the pivot's fingerprint;
files within the threshold join the group and are marked visited.  A
raised `IndexError` in the distance aborts the run (`none`). -/
def sweepInner (t : Nat) (pfp : List (List Bool)) :
    List VFile → List Nat → Option (List VFile × List Nat)
  | [], vis => some ([], vis)
  | c :: rest, vis =>
    if c.path ∈ vis then sweepInner t pfp rest vis
    else
      match vdist pfp c.fp with
      | none => none
      | some d =>
        if d ≤ t then
          match sweepInner t pfp rest (c.path :: vis) with
          | none => none
          | some (g, vis2) => some (c :: g, vis2)
        else sweepInner t pfp rest vis

/-- The outer loop of the clustering sweep (`for i in range(len(...))`):
each unvisited file starts a new group with itself as pivot; groups with
more than one member are emitted (`if len(group) > 1`). -/
def sweepOuter (t : Nat) : List VFile → List Nat → Option (List (List VFile))
  | [], _ => some []
  | p :: rest, vis =>
    if p.path ∈ vis then sweepOuter t rest vis
    else
      match sweepInner t p.fp rest (p.path :: vis) with
      | none => none
      | some (g, vis2) =>
        match sweepOuter t rest vis2 with
        | none => none
        | some gs =>
          if 1 < (p :: g).length then some ((p :: g) :: gs) else some gs

/-- The clustering step of `VideoFileAuditor.run` on a fixed set of
fingerprinted files: sort by path, then greedy left-to-right sweep.
`none` models the run dying on an uncaught `IndexError` inside the
sweep. -/
def vclusters (t : Nat) (files : List VFile) : Option (List (List VFile)) :=
  sweepOuter t (sortByPath files) []

/-- Run statistics of `FolderMerger` (`self.stats`). -/
structure MergeStats where
  merged : Nat
  duplicates : Nat
  renamed : Nat
  errors : Nat
deriving DecidableEq, Repr

/-- `FolderMerger` mode: copy or move incoming files into the master tree. -/
inductive MergeMode
  | copy
  | move
deriving DecidableEq, Repr

/-- `FolderMerger` duplicate action. -/
inductive DupeAction
  | ignore
  | delete
  | quarantine
deriving DecidableEq, Repr

/-- A filesystem mutation performed by a live merge run.  Incoming files
are identified by their path relative to the incoming root; destination
paths live in the master tree's namespace (the merge reconciles two
separate trees, so the two namespaces are disjoint and the quarantine
directory — a sibling of the incoming root — is outside both). -/
inductive FsAction
  | removeFile : Nat → FsAction
  | quarantineMove : Nat → FsAction
  | makeDirs : Nat → FsAction
  | copyFile : Nat → Nat → FsAction
  | moveFile : Nat → Nat → FsAction
deriving DecidableEq, Repr

/-- An incoming or master file in a merge run: path relative to its
root, byte content (whose length is its `stat` size), and whether a
full read succeeds (`_hash` returns `None` on a read error). -/
structure MFile where
  relpath : Nat
  content : List Nat
  readable : Bool
deriving DecidableEq, Repr

/-- Mutable state of a merge run: statistics, the set of destination
paths that exist under the master root (initially the master files,
extended by live copies/moves), the dry-run `simulated_paths` set, and
the filesystem mutations performed so far. -/
structure MergeSt where
  stats : MergeStats
  existing : List Nat
  simulated : List Nat
  actions : List FsAction
deriving Repr

/-- Configuration of a merge run.  `renameTs` models the timestamp
rename `dest.with_name(f"{dest.stem}_{int(time.time())}{dest.suffix}")`
(the clock is an external input, constant within a modelled run);
`digest` models the SHA-256 digest of `_hash`. -/
structure MergeCfg where
  mode : MergeMode
  dupeAction : DupeAction
  dryRun : Bool
  renameTs : Nat → Nat
  digest : List Nat → List Nat

/-- `FolderMerger._hash`: `None` when the file cannot be read, otherwise
the digest of the full content. -/
def mhash (cfg : MergeCfg) (f : MFile) : Option (List Nat) :=
  if f.readable then some (cfg.digest f.content) else none

/-- `FolderMerger._handle_dupe`: count the duplicate, and in a live run
apply the configured duplicate action (delete, or move into the
quarantine tree creating parent directories). -/
def handleDupe (cfg : MergeCfg) (st : MergeSt) (p : MFile) : MergeSt :=
  let st1 : MergeSt :=
    { st with stats := { st.stats with duplicates := st.stats.duplicates + 1 } }
  if cfg.dupeAction = DupeAction.delete ∧ cfg.dryRun = false then
    { st1 with actions := st1.actions ++ [FsAction.removeFile p.relpath] }
  else if cfg.dupeAction = DupeAction.quarantine ∧ cfg.dryRun = false then
    { st1 with actions := st1.actions ++
        [FsAction.makeDirs p.relpath, FsAction.quarantineMove p.relpath] }
  else st1

/-- `FolderMerger._merge`: mirror the incoming-relative path under the
master root; rename with a timestamp suffix if that destination already
exists — or, in a dry run, was already claimed by this run
(`simulated_paths`); then copy or move into place in a live run, or
record the claimed destination in a dry run; count the merge. -/
def mergeFile (cfg : MergeCfg) (st : MergeSt) (p : MFile) : MergeSt :=
  let dest0 := p.relpath
  let pick : Nat × MergeSt :=
    if dest0 ∈ st.existing ∨ (cfg.dryRun = true ∧ dest0 ∈ st.simulated) then
      (cfg.renameTs dest0,
       { st with stats := { st.stats with renamed := st.stats.renamed + 1 } })
    else (dest0, st)
  let dest := pick.1
  let st1 := pick.2
  let st2 : MergeSt :=
    if cfg.dryRun = true then { st1 with simulated := dest :: st1.simulated }
    else
      { st1 with existing := dest :: st1.existing
                 actions := st1.actions ++
        [FsAction.makeDirs dest,
         if cfg.mode = MergeMode.move then FsAction.moveFile p.relpath dest
         else FsAction.copyFile p.relpath dest] }
  { st2 with stats := { st2.stats with merged := st2.stats.merged + 1 } }

/-- The same-size master candidates of an incoming file
(`master_index[sz]`). -/
def sameSize (master : List MFile) (p : MFile) : List MFile :=
  master.filter (fun m => decide (m.content.length = p.content.length))

/-- The duplicate test of `FolderMerger.run`: some same-size master
candidate has the same full-content hash as the incoming file
(short-circuiting on the first match); two `None` hash results compare
equal. -/
def isDupe (cfg : MergeCfg) (master : List MFile) (p : MFile) : Bool :=
  (sameSize master p).any (fun c => decide (mhash cfg p = mhash cfg c))

/-- The per-incoming-file body of `FolderMerger.run`'s main loop. -/
def mergeStep (cfg : MergeCfg) (master : List MFile) (st : MergeSt)
    (p : MFile) : MergeSt :=
  if isDupe cfg master p = true then handleDupe cfg st p
  else mergeFile cfg st p

/-- The state at the start of a merge run: zeroed statistics, the master
index's files as the existing destinations, empty `simulated_paths`. -/
def initSt (master : List MFile) : MergeSt :=
  { stats := ⟨0, 0, 0, 0⟩
    existing := master.map MFile.relpath
    simulated := []
    actions := [] }

/-- `FolderMerger.run` with no stop signal: index the master tree by
size, then process each incoming file in turn. -/
def runMerge (cfg : MergeCfg) (master incoming : List MFile) : MergeSt :=
  incoming.foldl (mergeStep cfg master) (initSt master)

/-! ### Helper lemmas about the bucketing combinators -/

lemma two_mem_one_lt_length {α : Type} {l : List α} {a b : α}
    (ha : a ∈ l) (hb : b ∈ l) (hne : a ≠ b) : 1 < l.length := by
  match l with
  | [] => cases ha
  | [x] =>
    rw [List.mem_singleton] at ha hb
    exact absurd (ha.trans hb.symm) hne
  | x :: y :: rest => simp [Nat.lt_add_of_pos_left]

lemma self_mem_filter_key {κ : Type} [DecidableEq κ] (key : SFile → κ)
    {xs : List SFile} {x : SFile} (hx : x ∈ xs) :
    x ∈ xs.filter (fun y => decide (key y = key x)) :=
  List.mem_filter.mpr ⟨hx, decide_eq_true rfl⟩

lemma filter_key_mem_bucketsBy {κ : Type} [DecidableEq κ] (key : SFile → κ)
    {xs : List SFile} {x : SFile} (hx : x ∈ xs) :
    xs.filter (fun y => decide (key y = key x)) ∈ bucketsBy key xs := by
  unfold bucketsBy
  exact List.mem_map_of_mem _ (List.mem_dedup.mpr (List.mem_map_of_mem key hx))

lemma bucketsBy_shape {κ : Type} [DecidableEq κ] {key : SFile → κ}
    {xs : List SFile} {g : List SFile} (hg : g ∈ bucketsBy key xs) :
    ∃ k, g = xs.filter (fun y => decide (key y = k)) := by
  unfold bucketsBy at hg
  obtain ⟨k, _, hk⟩ := List.mem_map.mp hg
  exact ⟨k, hk.symm⟩

lemma mem_survivors {κ : Type} [DecidableEq κ] (key : SFile → κ)
    {xs : List SFile} {x y : SFile} (hx : x ∈ xs) (hy : y ∈ xs)
    (hne : x ≠ y) (hk : key x = key y) : x ∈ survivors key xs := by
  unfold survivors keepMulti
  apply List.mem_flatten.mpr
  refine ⟨xs.filter (fun z => decide (key z = key x)), ?_, self_mem_filter_key key hx⟩
  apply List.mem_filter.mpr
  refine ⟨filter_key_mem_bucketsBy key hx, decide_eq_true ?_⟩
  have hy' : y ∈ xs.filter (fun z => decide (key z = key x)) :=
    List.mem_filter.mpr ⟨hy, decide_eq_true hk.symm⟩
  exact two_mem_one_lt_length (self_mem_filter_key key hx) hy' hne

lemma survivors_subset {κ : Type} [DecidableEq κ] {key : SFile → κ}
    {xs : List SFile} {x : SFile} (hx : x ∈ survivors key xs) : x ∈ xs := by
  unfold survivors keepMulti at hx
  obtain ⟨g, hg, hxg⟩ := List.mem_flatten.mp hx
  obtain ⟨hgb, _⟩ := List.mem_filter.mp hg
  obtain ⟨k, rfl⟩ := bucketsBy_shape hgb
  exact (List.mem_filter.mp hxg).1

lemma survivors_key_eq {κ : Type} [DecidableEq κ] (key : SFile → κ)
    {xs : List SFile} {x y : SFile} (hx : x ∈ xs) (hy : y ∈ xs)
    (hne : x ≠ y) (hk : key x = key y) :
    x ∈ survivors key xs ∧ y ∈ survivors key xs :=
  ⟨mem_survivors key hx hy hne hk, mem_survivors key hy hx hne.symm hk.symm⟩

lemma keepMulti_bucketsBy_key_eq {κ : Type} [DecidableEq κ] {key : SFile → κ}
    {xs : List SFile} {g : List SFile}
    (hg : g ∈ keepMulti (bucketsBy key xs)) {a b : SFile}
    (ha : a ∈ g) (hb : b ∈ g) : key a = key b := by
  obtain ⟨hgb, _⟩ := List.mem_filter.mp hg
  obtain ⟨k, rfl⟩ := bucketsBy_shape hgb
  have hka := of_decide_eq_true (List.mem_filter.mp ha).2
  have hkb := of_decide_eq_true (List.mem_filter.mp hb).2
  exact hka.trans hkb.symm

lemma keepMulti_bucketsBy_subset {κ : Type} [DecidableEq κ] {key : SFile → κ}
    {xs : List SFile} {g : List SFile}
    (hg : g ∈ keepMulti (bucketsBy key xs)) {a : SFile} (ha : a ∈ g) :
    a ∈ xs := by
  obtain ⟨hgb, _⟩ := List.mem_filter.mp hg
  obtain ⟨k, rfl⟩ := bucketsBy_shape hgb
  exact (List.mem_filter.mp ha).1

lemma keepMulti_length {gs : List (List SFile)} {g : List SFile}
    (hg : g ∈ keepMulti gs) : 1 < g.length :=
  of_decide_eq_true (List.mem_filter.mp hg).2

/-- Members of one emitted exact group share the `(size, full_hash)` key. -/
lemma exactGroups_fullKey_eq {digest : List Nat → List Nat}
    {files : List SFile} {g : List SFile}
    (hg : g ∈ exactGroups digest files) {a b : SFile}
    (ha : a ∈ g) (hb : b ∈ g) : fullKey digest a = fullKey digest b :=
  keepMulti_bucketsBy_key_eq hg ha hb

/-! ### Claim theorems -/

/-- C1: For every pair of distinct readable files A and B under the
scanned root, an exact full scan (`FileAuditor.run`, no stop/pause,
collision-free digest) places A and B in the same emitted duplicate
group exactly when their byte contents are identical — membership is
decided by equality of `(size, full_hash)`. -/
theorem exact_scan_same_group_iff_same_content
    (digest : List Nat → List Nat) (hinj : Function.Injective digest)
    (files : List SFile) (A B : SFile)
    (hA : A ∈ files) (hB : B ∈ files) (hne : A ≠ B) :
    A.content = B.content ↔
      ∃ g ∈ exactGroups digest files, A ∈ g ∧ B ∈ g := by
  constructor
  · intro hc
    have hsz : sizeKey A = sizeKey B := by unfold sizeKey; rw [hc]
    have hp1 := survivors_key_eq sizeKey hA hB hne hsz
    have hpre : preKey digest A = preKey digest B := by unfold preKey; rw [hc]
    have hp2 := survivors_key_eq (preKey digest) hp1.1 hp1.2 hne hpre
    have hfull : fullKey digest A = fullKey digest B := by unfold fullKey; rw [hc]
    refine ⟨(phase2Input digest files).filter
        (fun y => decide (fullKey digest y = fullKey digest A)), ?_, ?_, ?_⟩
    · unfold exactGroups keepMulti
      apply List.mem_filter.mpr
      refine ⟨filter_key_mem_bucketsBy (fullKey digest) hp2.1, decide_eq_true ?_⟩
      have hBm : B ∈ (phase2Input digest files).filter
          (fun y => decide (fullKey digest y = fullKey digest A)) :=
        List.mem_filter.mpr ⟨hp2.2, decide_eq_true hfull.symm⟩
      exact two_mem_one_lt_length (self_mem_filter_key (fullKey digest) hp2.1) hBm hne
    · exact self_mem_filter_key (fullKey digest) hp2.1
    · exact List.mem_filter.mpr ⟨hp2.2, decide_eq_true hfull.symm⟩
  · rintro ⟨g, hg, hAg, hBg⟩
    have hkey := exactGroups_fullKey_eq hg hAg hBg
    exact hinj (congrArg Prod.snd hkey)

/-- Witness for C1 at a concrete two-file scan with identical contents. -/
theorem exact_scan_same_group_iff_same_content_witness :
    ((⟨0, [5], 0, true⟩ : SFile) ∈
        [(⟨0, [5], 0, true⟩ : SFile), ⟨1, [5], 1, true⟩] ∧
      (⟨1, [5], 1, true⟩ : SFile) ∈
        [(⟨0, [5], 0, true⟩ : SFile), ⟨1, [5], 1, true⟩] ∧
      (⟨0, [5], 0, true⟩ : SFile) ≠ ⟨1, [5], 1, true⟩) ∧
    ((⟨0, [5], 0, true⟩ : SFile).content = (⟨1, [5], 1, true⟩ : SFile).content ↔
      ∃ g ∈ exactGroups (fun c => c)
          [(⟨0, [5], 0, true⟩ : SFile), ⟨1, [5], 1, true⟩],
        (⟨0, [5], 0, true⟩ : SFile) ∈ g ∧ (⟨1, [5], 1, true⟩ : SFile) ∈ g) :=
  ⟨⟨by decide, by decide, by decide⟩,
   exact_scan_same_group_iff_same_content (fun c => c) (fun _ _ h => h)
     [⟨0, [5], 0, true⟩, ⟨1, [5], 1, true⟩] ⟨0, [5], 0, true⟩ ⟨1, [5], 1, true⟩
     (by decide) (by decide) (by decide)⟩

/-- C2: In an exact scan with a collision-free digest, two files whose
partial-hash keys `(size, partial_hash)` collide but whose full contents
differ are never placed in the same final duplicate group: the
pre-screen only filters candidates, final groups are keyed on
`(size, full_hash)` only. -/
theorem prescreen_collision_never_groups
    (digest : List Nat → List Nat) (hinj : Function.Injective digest)
    (files : List SFile) (A B : SFile)
    (_hA : A ∈ files) (_hB : B ∈ files)
    (_hpre : preKey digest A = preKey digest B)
    (hne : A.content ≠ B.content) :
    ¬ ∃ g ∈ exactGroups digest files, A ∈ g ∧ B ∈ g := by
  rintro ⟨g, hg, hAg, hBg⟩
  exact hne (hinj (congrArg Prod.snd (exactGroups_fullKey_eq hg hAg hBg)))

/-- Concrete files for the C2 witness: both are 4097 bytes and agree on
their first 4096 bytes (hence collide on the partial-hash key) but
differ in the final byte. -/
def preCollA : SFile := ⟨0, List.replicate 4097 0, 0, true⟩

/-- Second file of the C2 witness pair. -/
def preCollB : SFile := ⟨1, List.replicate 4096 0 ++ [1], 1, true⟩

lemma preColl_preKey_eq :
    preKey (fun c => c) preCollA = preKey (fun c => c) preCollB := by
  have h1 : List.take 4096 (List.replicate 4097 (0 : Nat)) =
      List.replicate 4096 0 := by
    rw [List.take_replicate]; norm_num
  have h2 : List.take 4096 (List.replicate 4096 (0 : Nat) ++ [1]) =
      List.replicate 4096 0 := by
    have h := List.take_left (List.replicate 4096 (0 : Nat)) [1]
    rwa [List.length_replicate] at h
  unfold preKey preCollA preCollB
  dsimp only
  rw [h1, h2, List.length_append, List.length_replicate, List.length_replicate]
  norm_num

lemma preColl_content_ne : preCollA.content ≠ preCollB.content := by
  show List.replicate 4097 (0 : Nat) ≠ List.replicate 4096 0 ++ [1]
  intro h
  have h1 : (1 : Nat) ∈ List.replicate 4096 (0 : Nat) ++ [1] :=
    List.mem_append_right _ (List.mem_singleton.mpr rfl)
  rw [← h] at h1
  exact absurd (List.eq_of_mem_replicate h1) one_ne_zero

/-- Witness for C2 at a concrete pair with a genuine partial-hash
collision and unequal contents. -/
theorem prescreen_collision_never_groups_witness :
    (preCollA ∈ [preCollA, preCollB] ∧ preCollB ∈ [preCollA, preCollB] ∧
      preKey (fun c => c) preCollA = preKey (fun c => c) preCollB ∧
      preCollA.content ≠ preCollB.content) ∧
    ¬ ∃ g ∈ exactGroups (fun c => c) [preCollA, preCollB],
        preCollA ∈ g ∧ preCollB ∈ g :=
  ⟨⟨List.mem_cons_self _ _, List.mem_cons_of_mem _ (List.mem_cons_self _ _),
    preColl_preKey_eq, preColl_content_ne⟩,
   prescreen_collision_never_groups (fun c => c) (fun _ _ h => h)
     [preCollA, preCollB] preCollA preCollB
     (List.mem_cons_self _ _) (List.mem_cons_of_mem _ (List.mem_cons_self _ _))
     preColl_preKey_eq preColl_content_ne⟩

/-- C7 counterexample: with a root that does not exist (so that
`os.walk` yields nothing), `FileAuditor.run` does not surface any
configuration error — it completes a scan of zero files normally,
which is exactly what the claim says cannot happen. -/
theorem audit_missing_root_completes_scan :
    exactAuditRun (fun c => c) [] =
      Except.ok { filesScanned := 0, groups := [] } ∧
    ∀ e : String, exactAuditRun (fun c => c) [] ≠ Except.error e := by
  refine ⟨rfl, fun e h => ?_⟩
  exact Except.noConfusion h

/-- C7 (amended): the engine performs no validation of the root path:
neither `FileAuditor.__init__` nor `run` checks that the root exists or
is a directory, `os.walk` of such a root yields no entries, and the run
completes normally with zero files scanned, zero groups and no error
(there is no fail-fast path). -/
theorem audit_no_root_validation (digest : List Nat → List Nat) :
    exactAuditRun digest [] =
      Except.ok { filesScanned := 0, groups := [] } := rfl

/-- C9: When the stop signal is raised after `k` of the full-hash tasks'
results have been consumed (the loop checks the stop event before
consuming each completed future, and `arrival` is the order in which
`as_completed` delivers the phase-B survivors), every reported group has
at least two members, contains only files whose full-hash task completed
before the stop, and all its members share the `(size, full_hash)` key —
no partially-hashed file and no partially-built group is ever emitted. -/
theorem stopped_run_groups_fully_hashed
    (digest : List Nat → List Nat) (files arrival : List SFile) (k : Nat)
    (_harr : arrival.Perm (phase2Input digest files)) :
    ∀ g ∈ stoppedGroups digest arrival k,
      1 < g.length ∧ (∀ f ∈ g, f ∈ arrival.take k) ∧
      ∀ a ∈ g, ∀ b ∈ g, fullKey digest a = fullKey digest b := by
  intro g hg
  exact ⟨keepMulti_length hg,
         fun f hf => keepMulti_bucketsBy_subset hg hf,
         fun a ha b hb => keepMulti_bucketsBy_key_eq hg ha hb⟩

/-- Witness for C9: a two-file corpus of identical contents whose stop
arrives after both full-hash results; the reported group uses exactly
the consumed files. -/
theorem stopped_run_groups_fully_hashed_witness :
    ((phase2Input (fun c => c)
        [⟨0, [3], 0, true⟩, ⟨1, [3], 1, true⟩]).Perm
      (phase2Input (fun c => c)
        [⟨0, [3], 0, true⟩, ⟨1, [3], 1, true⟩])) ∧
    ∀ g ∈ stoppedGroups (fun c => c)
        (phase2Input (fun c => c) [⟨0, [3], 0, true⟩, ⟨1, [3], 1, true⟩]) 2,
      1 < g.length ∧
      (∀ f ∈ g, f ∈ (phase2Input (fun c => c)
          [⟨0, [3], 0, true⟩, ⟨1, [3], 1, true⟩]).take 2) ∧
      ∀ a ∈ g, ∀ b ∈ g, fullKey (fun c => c) a = fullKey (fun c => c) b :=
  ⟨List.Perm.refl _,
   stopped_run_groups_fully_hashed (fun c => c)
     [⟨0, [3], 0, true⟩, ⟨1, [3], 1, true⟩] _ 2 (List.Perm.refl _)⟩

lemma deleteSweep_eq_self {l : List SFile}
    (h : ∀ d ∈ l, d.deletable = true) : deleteSweep l = l := by
  induction l with
  | nil => rfl
  | cons d rest ih =>
    unfold deleteSweep
    rw [if_pos (h d (List.mem_cons_self d rest))]
    rw [ih (fun x hx => h x (List.mem_cons_of_mem d hx))]

lemma mem_deleteSweep_of_deletable {l : List SFile} {d : SFile}
    (hd : d ∈ l) (hdel : d.deletable = true) : d ∈ deleteSweep l := by
  induction l with
  | nil => cases hd
  | cons x rest ih =>
    unfold deleteSweep
    rcases List.mem_cons.mp hd with h | h
    · subst h
      rw [if_pos hdel]
      exact List.mem_cons_self _ _
    · by_cases hx : x.deletable = true
      · rw [if_pos hx]
        exact List.mem_cons_of_mem _ (ih h)
      · rw [if_neg hx]
        exact ih h

/-- C8: Resolving a group of at least two files with the delete action
in a live run (`dry_run = False`), all files deletable, sorts by
creation time ascending, keeps exactly the head of the sort (a file of
minimal creation time), removes exactly the remaining `n - 1` files and
reports bytes saved equal to the sum of the removed files' sizes.
Moreover — for any group, deletable or not — each removal runs in its
own `try/except`, so every deletable duplicate is removed even when the
deletion of an earlier duplicate fails. -/
theorem resolve_delete_keeps_oldest (files : List SFile)
    (h2 : 2 ≤ files.length) (hdel : ∀ f ∈ files, f.deletable = true) :
    (∃ kept rest, List.insertionSort ctimeLe files = kept :: rest ∧
      (resolveGroup false true files).kept = some kept ∧
      (resolveGroup false true files).removed = rest ∧
      (kept :: rest).Perm files ∧
      (∀ f ∈ files, kept.ctime ≤ f.ctime) ∧
      (resolveGroup false true files).removed.length = files.length - 1 ∧
      (resolveGroup false true files).bytes =
        ((resolveGroup false true files).removed.map SFile.size).sum) ∧
    ∀ gs : List SFile, ∀ d ∈ (List.insertionSort ctimeLe gs).tail,
      d.deletable = true → d ∈ (resolveGroup false true gs).removed := by
  constructor
  · have hperm : (List.insertionSort ctimeLe files).Perm files :=
      List.perm_insertionSort ctimeLe files
    have hsorted : (List.insertionSort ctimeLe files).Sorted ctimeLe :=
      List.sorted_insertionSort ctimeLe files
    obtain ⟨kept, rest, hcons⟩ :
        ∃ kept rest, List.insertionSort ctimeLe files = kept :: rest := by
      match hs : List.insertionSort ctimeLe files with
      | [] =>
        rw [hs] at hperm
        have := hperm.length_eq
        simp at this
        omega
      | kept :: rest => exact ⟨kept, rest, rfl⟩
    refine ⟨kept, rest, hcons, ?_, ?_, ?_, ?_, ?_, ?_⟩
    · unfold resolveGroup
      rw [hcons]
      rfl
    · unfold resolveGroup
      rw [hcons]
      dsimp only
      rw [if_neg (by simp)]
      apply deleteSweep_eq_self
      intro d hd
      exact hdel d ((hcons ▸ hperm).mem_iff.mp (List.mem_cons_of_mem kept hd))
    · exact hcons ▸ hperm
    · intro f hf
      rw [hcons] at hperm hsorted
      rcases List.mem_cons.mp (hperm.mem_iff.mpr hf) with h | h
      · rw [h]
      · exact (List.sorted_cons.mp hsorted).1 f h
    · unfold resolveGroup
      rw [hcons]
      dsimp only
      rw [if_neg (by simp)]
      rw [deleteSweep_eq_self (fun d hd => hdel d
        ((hcons ▸ hperm).mem_iff.mp (List.mem_cons_of_mem kept hd)))]
      rw [List.tail_cons]
      have := (hcons ▸ hperm).length_eq
      simp at this
      omega
    · unfold resolveGroup
      rw [hcons]
      dsimp only
      rw [if_neg (by simp)]
      rw [deleteSweep_eq_self (fun d hd => hdel d
        ((hcons ▸ hperm).mem_iff.mp (List.mem_cons_of_mem kept hd)))]
  · intro gs d hd hdd
    unfold resolveGroup
    dsimp only
    rw [if_neg (by simp)]
    exact mem_deleteSweep_of_deletable hd hdd

/-- Witness for C8: a five-member identical-content group, oldest file
created first; the oldest is kept, the other four are removed, and the
bytes saved are four times the file size. -/
theorem resolve_delete_keeps_oldest_witness :
    (2 ≤ ([⟨0, [9, 9], 5, true⟩, ⟨1, [9, 9], 1, true⟩, ⟨2, [9, 9], 4, true⟩,
        ⟨3, [9, 9], 2, true⟩, ⟨4, [9, 9], 3, true⟩] : List SFile).length) ∧
    (∃ kept rest,
      List.insertionSort ctimeLe
          [⟨0, [9, 9], 5, true⟩, ⟨1, [9, 9], 1, true⟩, ⟨2, [9, 9], 4, true⟩,
            ⟨3, [9, 9], 2, true⟩, ⟨4, [9, 9], 3, true⟩] = kept :: rest ∧
      (resolveGroup false true
          [⟨0, [9, 9], 5, true⟩, ⟨1, [9, 9], 1, true⟩, ⟨2, [9, 9], 4, true⟩,
            ⟨3, [9, 9], 2, true⟩, ⟨4, [9, 9], 3, true⟩]).kept = some kept ∧
      (resolveGroup false true
          [⟨0, [9, 9], 5, true⟩, ⟨1, [9, 9], 1, true⟩, ⟨2, [9, 9], 4, true⟩,
            ⟨3, [9, 9], 2, true⟩, ⟨4, [9, 9], 3, true⟩]).removed = rest ∧
      (kept :: rest).Perm
          [⟨0, [9, 9], 5, true⟩, ⟨1, [9, 9], 1, true⟩, ⟨2, [9, 9], 4, true⟩,
            ⟨3, [9, 9], 2, true⟩, ⟨4, [9, 9], 3, true⟩] ∧
      (∀ f ∈ ([⟨0, [9, 9], 5, true⟩, ⟨1, [9, 9], 1, true⟩, ⟨2, [9, 9], 4, true⟩,
          ⟨3, [9, 9], 2, true⟩, ⟨4, [9, 9], 3, true⟩] : List SFile),
        kept.ctime ≤ f.ctime) ∧
      (resolveGroup false true
          [⟨0, [9, 9], 5, true⟩, ⟨1, [9, 9], 1, true⟩, ⟨2, [9, 9], 4, true⟩,
            ⟨3, [9, 9], 2, true⟩, ⟨4, [9, 9], 3, true⟩]).removed.length =
        ([⟨0, [9, 9], 5, true⟩, ⟨1, [9, 9], 1, true⟩, ⟨2, [9, 9], 4, true⟩,
            ⟨3, [9, 9], 2, true⟩, ⟨4, [9, 9], 3, true⟩] : List SFile).length - 1 ∧
      (resolveGroup false true
          [⟨0, [9, 9], 5, true⟩, ⟨1, [9, 9], 1, true⟩, ⟨2, [9, 9], 4, true⟩,
            ⟨3, [9, 9], 2, true⟩, ⟨4, [9, 9], 3, true⟩]).bytes =
        (((resolveGroup false true
            [⟨0, [9, 9], 5, true⟩, ⟨1, [9, 9], 1, true⟩, ⟨2, [9, 9], 4, true⟩,
              ⟨3, [9, 9], 2, true⟩, ⟨4, [9, 9], 3, true⟩]).removed.map
          SFile.size).sum)) :=
  ⟨by decide,
   (resolve_delete_keeps_oldest
     [⟨0, [9, 9], 5, true⟩, ⟨1, [9, 9], 1, true⟩, ⟨2, [9, 9], 4, true⟩,
       ⟨3, [9, 9], 2, true⟩, ⟨4, [9, 9], 3, true⟩]
     (by decide) (by decide)).1⟩

lemma sweepInner_nil (t : Nat) (pfp : List (List Bool)) (vis : List Nat) :
    sweepInner t pfp [] vis = some ([], vis) := rfl

lemma sweepInner_cons (t : Nat) (pfp : List (List Bool)) (c : VFile)
    (rest : List VFile) (vis : List Nat) :
    sweepInner t pfp (c :: rest) vis =
      if c.path ∈ vis then sweepInner t pfp rest vis
      else
        match vdist pfp c.fp with
        | none => none
        | some d =>
          if d ≤ t then
            match sweepInner t pfp rest (c.path :: vis) with
            | none => none
            | some (g, vis2) => some (c :: g, vis2)
          else sweepInner t pfp rest vis := rfl

lemma sweepOuter_nil (t : Nat) (vis : List Nat) :
    sweepOuter t [] vis = some [] := rfl

lemma sweepOuter_cons (t : Nat) (p : VFile) (rest : List VFile)
    (vis : List Nat) :
    sweepOuter t (p :: rest) vis =
      if p.path ∈ vis then sweepOuter t rest vis
      else
        match sweepInner t p.fp rest (p.path :: vis) with
        | none => none
        | some (g, vis2) =>
          match sweepOuter t rest vis2 with
          | none => none
          | some gs =>
            if 1 < (p :: g).length then some ((p :: g) :: gs) else some gs :=
  rfl

/-- Two lists that are permutations of each other, both sorted by path,
with no two elements sharing a path, are equal. -/
lemma eq_of_perm_of_sorted_paths :
    ∀ (l₁ l₂ : List VFile), l₁.Perm l₂ → l₁.Sorted pathLe →
      l₂.Sorted pathLe → (l₁.map VFile.path).Nodup → l₁ = l₂ := by
  intro l₁
  induction l₁ with
  | nil =>
    intro l₂ hp _ _ _
    exact (hp.symm.eq_nil).symm
  | cons a t ih =>
    intro l₂ hp hs₁ hs₂ hnd
    match l₂ with
    | [] => exact absurd hp.eq_nil (by simp)
    | b :: t₂ =>
      have hab : a = b := by
        by_contra hne
        have hbmem : b ∈ a :: t := hp.mem_iff.mpr (List.mem_cons_self b t₂)
        rcases List.mem_cons.mp hbmem with h | hbt
        · exact hne h.symm
        have hamem : a ∈ b :: t₂ := hp.mem_iff.mp (List.mem_cons_self a t)
        rcases List.mem_cons.mp hamem with h | hat₂
        · exact hne h
        have h₁ : a.path ≤ b.path := (List.sorted_cons.mp hs₁).1 b hbt
        have h₂ : b.path ≤ a.path := (List.sorted_cons.mp hs₂).1 a hat₂
        have hpeq : a.path = b.path := Nat.le_antisymm h₁ h₂
        have : a.path ∈ t.map VFile.path := by
          rw [hpeq]
          exact List.mem_map_of_mem VFile.path hbt
        simp only [List.map_cons, List.nodup_cons] at hnd
        exact hnd.1 this
      subst hab
      have ht : t = t₂ := by
        apply ih t₂ hp.cons_inv (List.sorted_cons.mp hs₁).2
          (List.sorted_cons.mp hs₂).2
        simp only [List.map_cons, List.nodup_cons] at hnd
        exact hnd.2
      rw [ht]

/-- C3 counterexample: three fingerprinted files with pairwise Hamming
distances d(A,B) = 1 ≤ 1, d(B,C) = 1 ≤ 1, d(A,C) = 2 > 1 at threshold 1.
The sweep compares candidates only against the group's pivot, so the run
emits the single group {A, B} and drops C as a discarded singleton — it
does not yield the group {A, B, C} the claim requires. -/
theorem vclusters_pivot_not_single_link :
    vdist [[false, false]] [[false, true]] = some 1 ∧
    vdist [[false, true]] [[true, true]] = some 1 ∧
    vdist [[false, false]] [[true, true]] = some 2 ∧
    vclusters 1 [⟨0, [[false, false]]⟩, ⟨1, [[false, true]]⟩,
        ⟨2, [[true, true]]⟩] =
      some [[⟨0, [[false, false]]⟩, ⟨1, [[false, true]]⟩]] ∧
    ∀ g ∈ [[(⟨0, [[false, false]]⟩ : VFile), ⟨1, [[false, true]]⟩]],
      (⟨2, [[true, true]]⟩ : VFile) ∉ g := by
  refine ⟨by decide, by decide, by decide, by decide, by decide⟩

/-- C3 (amended): perceptual clustering is deterministic — any two
arrival orders of the same fingerprinted files (with distinct paths)
yield the same groups — and the sweep is greedy with pivot-only
comparison: for three files A, B, C in path order with
d(A,B) ≤ threshold, d(B,C) ≤ threshold and d(A,C) > threshold, the run
yields the single group {A, B}; C is never merged (it is compared only
against the pivot A) and is dropped as a singleton. -/
theorem vclusters_deterministic_and_pivot_greedy :
    (∀ (t : Nat) (l₁ l₂ : List VFile), l₁.Perm l₂ →
      (l₁.map VFile.path).Nodup → vclusters t l₁ = vclusters t l₂) ∧
    (∀ (t : Nat) (A B C : VFile) (dAB dBC dAC : Nat),
      A.path < B.path → B.path < C.path →
      vdist A.fp B.fp = some dAB → dAB ≤ t →
      vdist B.fp C.fp = some dBC → dBC ≤ t →
      vdist A.fp C.fp = some dAC → t < dAC →
      vclusters t [A, B, C] = some [[A, B]]) := by
  constructor
  · intro t l₁ l₂ hp hnd
    unfold vclusters
    have hsorteq : sortByPath l₁ = sortByPath l₂ := by
      apply eq_of_perm_of_sorted_paths
      · exact (List.perm_insertionSort pathLe l₁).trans
          (hp.trans (List.perm_insertionSort pathLe l₂).symm)
      · exact List.sorted_insertionSort pathLe l₁
      · exact List.sorted_insertionSort pathLe l₂
      · exact ((List.perm_insertionSort pathLe l₁).map VFile.path).nodup_iff.mpr hnd
    rw [hsorteq]
  · intro t A B C dAB dBC dAC hABp hBCp hvAB hdAB hvBC hdBC hvAC hdAC
    have hBA : ¬ B.path = A.path := Nat.ne_of_gt hABp
    have hCA : ¬ C.path = A.path := Nat.ne_of_gt (Nat.lt_trans hABp hBCp)
    have hCB : ¬ C.path = B.path := Nat.ne_of_gt hBCp
    have hsort : sortByPath [A, B, C] = [A, B, C] := by
      apply eq_of_perm_of_sorted_paths
      · exact List.perm_insertionSort pathLe [A, B, C]
      · exact List.sorted_insertionSort pathLe [A, B, C]
      · simp [List.sorted_cons, pathLe]
        exact ⟨⟨Nat.le_of_lt hABp, Nat.le_of_lt (Nat.lt_trans hABp hBCp)⟩,
          Nat.le_of_lt hBCp⟩
      · apply ((List.perm_insertionSort pathLe [A, B, C]).map VFile.path).nodup_iff.mpr
        simp
        exact ⟨⟨fun h => hBA h.symm, fun h => hCA h.symm⟩, fun h => hCB h.symm⟩
    have hIC : sweepInner t A.fp [C] [B.path, A.path] =
        some ([], [B.path, A.path]) := by
      rw [sweepInner_cons]
      rw [if_neg (by simp [hCA, hCB])]
      rw [hvAC]
      dsimp only
      rw [if_neg (Nat.not_le.mpr hdAC)]
      exact sweepInner_nil t A.fp [B.path, A.path]
    have hIB : sweepInner t A.fp [B, C] [A.path] =
        some ([B], [B.path, A.path]) := by
      rw [sweepInner_cons]
      rw [if_neg (by simp [hBA])]
      rw [hvAB]
      dsimp only
      rw [if_pos hdAB]
      rw [hIC]
    have hOC : sweepOuter t [C] [B.path, A.path] = some [] := by
      rw [sweepOuter_cons]
      rw [if_neg (by simp [hCB, hCA])]
      rw [sweepInner_nil]
      dsimp only
      rw [sweepOuter_nil]
      simp
    have hOB : sweepOuter t [B, C] [B.path, A.path] = some [] := by
      rw [sweepOuter_cons]
      rw [if_pos (by simp)]
      exact hOC
    unfold vclusters
    rw [hsort]
    rw [sweepOuter_cons]
    rw [if_neg (by simp)]
    rw [hIB]
    dsimp only
    rw [hOB]
    simp

/-- Witness for C3's amended theorem: both conjuncts applied at the
counterexample corpus (two arrival orders of the same three files, and
the three-file greedy scenario itself). -/
theorem vclusters_deterministic_and_pivot_greedy_witness :
    (([(⟨1, [[false, true]]⟩ : VFile), ⟨0, [[false, false]]⟩,
        ⟨2, [[true, true]]⟩].Perm
      [(⟨0, [[false, false]]⟩ : VFile), ⟨1, [[false, true]]⟩,
        ⟨2, [[true, true]]⟩]) ∧
     vclusters 1 [(⟨1, [[false, true]]⟩ : VFile), ⟨0, [[false, false]]⟩,
        ⟨2, [[true, true]]⟩] =
      vclusters 1 [(⟨0, [[false, false]]⟩ : VFile), ⟨1, [[false, true]]⟩,
        ⟨2, [[true, true]]⟩]) ∧
    vclusters 1 [(⟨0, [[false, false]]⟩ : VFile), ⟨1, [[false, true]]⟩,
        ⟨2, [[true, true]]⟩] =
      some [[⟨0, [[false, false]]⟩, ⟨1, [[false, true]]⟩]] :=
  ⟨⟨List.Perm.swap _ _ _,
    vclusters_deterministic_and_pivot_greedy.1 1 _ _
      (List.Perm.swap _ _ _) (by decide)⟩,
   vclusters_deterministic_and_pivot_greedy.2 1
     ⟨0, [[false, false]]⟩ ⟨1, [[false, true]]⟩ ⟨2, [[true, true]]⟩ 1 1 2
     (by decide) (by decide) (by decide) (by decide) (by decide) (by decide)
     (by decide) (by decide)⟩

/-- C4: the similarity comparison of the clustering sweep is not total.
`sum(p_fp[k] - c_fp[k] for k in range(len(p_fp)))` indexes the candidate
tuple at every pivot position, so a video pivot (3-tuple) compared with
an image candidate (1-tuple) raises `IndexError` (`none`) and the
uncaught exception kills the whole clustering run; in the opposite
order the sum ranges over the pivot's single position only. -/
theorem vdist_mixed_tuple_raises :
    vdist [[false, false], [false, false], [false, false]] [[false, false]] =
      none ∧
    vdist [[false, false]] [[false, false], [false, false], [false, false]] =
      some 0 ∧
    vclusters 0 [⟨0, [[false, false], [false, false], [false, false]]⟩,
        ⟨1, [[false, false]]⟩] = none := by
  refine ⟨by decide, by decide, by decide⟩

/-! ### Merge engine lemmas -/

lemma handleDupe_errors (cfg : MergeCfg) (st : MergeSt) (p : MFile) :
    (handleDupe cfg st p).stats.errors = st.stats.errors := by
  unfold handleDupe
  dsimp only
  split
  · rfl
  · split
    · rfl
    · rfl

lemma mergeFile_errors (cfg : MergeCfg) (st : MergeSt) (p : MFile) :
    (mergeFile cfg st p).stats.errors = st.stats.errors := by
  unfold mergeFile
  dsimp only
  split
  · split
    · rfl
    · rfl
  · split
    · rfl
    · rfl

lemma mergeStep_errors (cfg : MergeCfg) (master : List MFile) (st : MergeSt)
    (p : MFile) : (mergeStep cfg master st p).stats.errors = st.stats.errors := by
  unfold mergeStep
  split
  · exact handleDupe_errors cfg st p
  · exact mergeFile_errors cfg st p

lemma foldl_mergeStep_errors (cfg : MergeCfg) (master : List MFile) :
    ∀ (incoming : List MFile) (st : MergeSt),
      (incoming.foldl (mergeStep cfg master) st).stats.errors =
        st.stats.errors
  | [], _ => rfl
  | p :: rest, st => by
    rw [List.foldl_cons]
    rw [foldl_mergeStep_errors cfg master rest (mergeStep cfg master st p)]
    exact mergeStep_errors cfg master st p

/-- C6: the `errors` counter of `FolderMerger.stats` is never
incremented by any merge run, whatever the input trees, mode, duplicate
action or dry-run flag — per-file hash errors silently produce a `None`
digest and nothing is counted or logged, so the claimed
increment-and-continue error accounting does not exist in the code. -/
theorem merge_errors_counter_never_incremented (cfg : MergeCfg)
    (master incoming : List MFile) :
    (runMerge cfg master incoming).stats.errors = 0 :=
  foldl_mergeStep_errors cfg master incoming (initSt master)

/-- C10 (implicit): in a merge run, an incoming file whose hash cannot
be computed (`_hash` returns `None`) and that matches the size of some
master candidate whose hash also returns `None` is classified as a
duplicate, because `None == None`; with the delete action in a live run
the file is removed from disk even though its content was never
verified. -/
theorem merge_unverified_none_hash_deleted
    (rename : Nat → Nat) (digest : List Nat → List Nat)
    (master : List MFile) (inc cand : MFile)
    (hc : cand ∈ master) (hsz : cand.content.length = inc.content.length)
    (hir : inc.readable = false) (hcr : cand.readable = false) :
    (runMerge ⟨MergeMode.copy, DupeAction.delete, false, rename, digest⟩
        master [inc]).stats.duplicates = 1 ∧
    (runMerge ⟨MergeMode.copy, DupeAction.delete, false, rename, digest⟩
        master [inc]).actions = [FsAction.removeFile inc.relpath] := by
  have hdupe : isDupe ⟨MergeMode.copy, DupeAction.delete, false, rename, digest⟩
      master inc = true := by
    unfold isDupe
    rw [List.any_eq_true]
    refine ⟨cand, List.mem_filter.mpr ⟨hc, decide_eq_true hsz⟩, decide_eq_true ?_⟩
    unfold mhash
    rw [hir, hcr]
    simp
  unfold runMerge
  rw [List.foldl_cons, List.foldl_nil]
  unfold mergeStep
  rw [if_pos hdupe]
  unfold handleDupe initSt
  dsimp only
  rw [if_pos ⟨rfl, rfl⟩]
  exact ⟨rfl, rfl⟩

/-- Witness for C10: a one-file master tree and one incoming file, both
unreadable, of equal size; the incoming file is deleted unverified. -/
theorem merge_unverified_none_hash_deleted_witness :
    ((⟨0, [7], false⟩ : MFile) ∈ [(⟨0, [7], false⟩ : MFile)] ∧
      (⟨0, [7], false⟩ : MFile).content.length =
        (⟨1, [9], false⟩ : MFile).content.length) ∧
    (runMerge ⟨MergeMode.copy, DupeAction.delete, false, fun d => d,
        fun c => c⟩ [⟨0, [7], false⟩] [⟨1, [9], false⟩]).stats.duplicates = 1 ∧
    (runMerge ⟨MergeMode.copy, DupeAction.delete, false, fun d => d,
        fun c => c⟩ [⟨0, [7], false⟩]
        [⟨1, [9], false⟩]).actions = [FsAction.removeFile 1] :=
  ⟨⟨by decide, by decide⟩,
   merge_unverified_none_hash_deleted (fun d => d) (fun c => c)
     [⟨0, [7], false⟩] ⟨1, [9], false⟩ ⟨0, [7], false⟩
     (by decide) (by decide) rfl rfl⟩

/-- Simulation invariant between a dry run's state and the live run's
state over the same prefix of the incoming files: equal statistics, no
mutations on the dry side, the dry side's view of the filesystem frozen
at the initial master index, and the live side's filesystem equal to the
initial index plus exactly the destinations the dry run has claimed in
`simulated_paths`. -/
def DryLiveInv (init : List Nat) (d l : MergeSt) : Prop :=
  d.stats = l.stats ∧ d.actions = [] ∧ d.existing = init ∧
  ∀ x : Nat, x ∈ l.existing ↔ (x ∈ init ∨ x ∈ d.simulated)

lemma handleDupe_inv (mode : MergeMode) (action : DupeAction)
    (rename : Nat → Nat) (digest : List Nat → List Nat) (init : List Nat)
    (d l : MergeSt) (p : MFile) (h : DryLiveInv init d l) :
    DryLiveInv init (handleDupe ⟨mode, action, true, rename, digest⟩ d p)
      (handleDupe ⟨mode, action, false, rename, digest⟩ l p) := by
  obtain ⟨hs, ha, he, hex⟩ := h
  unfold handleDupe
  dsimp only
  rw [if_neg (by simp)]
  rw [if_neg (by simp)]
  by_cases h1 : action = DupeAction.delete
  · rw [if_pos ⟨h1, rfl⟩]
    exact ⟨by rw [hs], ha, he, hex⟩
  · rw [if_neg (fun hh => h1 hh.1)]
    by_cases h2 : action = DupeAction.quarantine
    · rw [if_pos ⟨h2, rfl⟩]
      exact ⟨by rw [hs], ha, he, hex⟩
    · rw [if_neg (fun hh => h2 hh.1)]
      exact ⟨by rw [hs], ha, he, hex⟩

lemma mergeFile_inv (mode : MergeMode) (action : DupeAction)
    (rename : Nat → Nat) (digest : List Nat → List Nat) (init : List Nat)
    (d l : MergeSt) (p : MFile) (h : DryLiveInv init d l) :
    DryLiveInv init (mergeFile ⟨mode, action, true, rename, digest⟩ d p)
      (mergeFile ⟨mode, action, false, rename, digest⟩ l p) := by
  obtain ⟨hs, ha, he, hex⟩ := h
  unfold mergeFile
  dsimp only
  have hdc : (p.relpath ∈ d.existing ∨
      ((true : Bool) = true ∧ p.relpath ∈ d.simulated)) ↔
      (p.relpath ∈ init ∨ p.relpath ∈ d.simulated) := by
    rw [he]; simp
  have hlc : (p.relpath ∈ l.existing ∨
      ((false : Bool) = true ∧ p.relpath ∈ l.simulated)) ↔
      (p.relpath ∈ init ∨ p.relpath ∈ d.simulated) := by
    simp [hex p.relpath]
  by_cases hc : p.relpath ∈ init ∨ p.relpath ∈ d.simulated
  · rw [if_pos (hdc.mpr hc), if_pos (hlc.mpr hc)]
    dsimp only
    rw [if_pos rfl, if_neg (by simp)]
    refine ⟨by rw [hs], ha, he, ?_⟩
    intro x
    simp only [List.mem_cons]
    rw [hex x]
    tauto
  · rw [if_neg (fun hh => hc (hdc.mp hh)), if_neg (fun hh => hc (hlc.mp hh))]
    dsimp only
    rw [if_pos rfl, if_neg (by simp)]
    refine ⟨by rw [hs], ha, he, ?_⟩
    intro x
    simp only [List.mem_cons]
    rw [hex x]
    tauto

lemma mergeStep_inv (mode : MergeMode) (action : DupeAction)
    (rename : Nat → Nat) (digest : List Nat → List Nat)
    (master : List MFile) (init : List Nat)
    (d l : MergeSt) (p : MFile) (h : DryLiveInv init d l) :
    DryLiveInv init (mergeStep ⟨mode, action, true, rename, digest⟩ master d p)
      (mergeStep ⟨mode, action, false, rename, digest⟩ master l p) := by
  unfold mergeStep
  have hid : isDupe ⟨mode, action, true, rename, digest⟩ master p =
      isDupe ⟨mode, action, false, rename, digest⟩ master p := rfl
  by_cases hdu : isDupe ⟨mode, action, false, rename, digest⟩ master p = true
  · rw [if_pos (hid.trans hdu), if_pos hdu]
    exact handleDupe_inv mode action rename digest init d l p h
  · rw [if_neg (fun hh => hdu (hid.symm.trans hh)), if_neg hdu]
    exact mergeFile_inv mode action rename digest init d l p h

lemma foldl_mergeStep_inv (mode : MergeMode) (action : DupeAction)
    (rename : Nat → Nat) (digest : List Nat → List Nat)
    (master : List MFile) (init : List Nat) :
    ∀ (incoming : List MFile) (d l : MergeSt), DryLiveInv init d l →
      DryLiveInv init
        (incoming.foldl
          (mergeStep ⟨mode, action, true, rename, digest⟩ master) d)
        (incoming.foldl
          (mergeStep ⟨mode, action, false, rename, digest⟩ master) l)
  | [], _, _, h => h
  | p :: rest, d, l, h =>
    foldl_mergeStep_inv mode action rename digest master init rest _ _
      (mergeStep_inv mode action rename digest master init d l p h)

/-- C5: for every master tree, incoming tree, mode and duplicate action,
a dry-run merge and a live merge over identical input produce identical
final statistics `{merged, duplicates, renamed, errors}`, and the
dry run performs zero filesystem mutations; the dry run simulates
destination collisions across the run through the `simulated_paths` set
of already-claimed destinations. -/
theorem merge_dry_live_same_stats_no_mutation (mode : MergeMode)
    (action : DupeAction) (rename : Nat → Nat)
    (digest : List Nat → List Nat) (master incoming : List MFile) :
    (runMerge ⟨mode, action, true, rename, digest⟩ master incoming).stats =
      (runMerge ⟨mode, action, false, rename, digest⟩ master incoming).stats ∧
    (runMerge ⟨mode, action, true, rename, digest⟩
        master incoming).actions = [] := by
  have h0 : DryLiveInv (master.map MFile.relpath) (initSt master)
      (initSt master) :=
    ⟨rfl, rfl, rfl, fun x => by simp [initSt]⟩
  have h := foldl_mergeStep_inv mode action rename digest master
    (master.map MFile.relpath) incoming (initSt master) (initSt master) h0
  exact ⟨h.1, h.2.1⟩

end DedupSuite
